import Mathlib

/-!
A shallow embedding of the Merkle AVL tree from `src/avl/src/node.rs`.

The Rust code hashes with `std::collections::hash_map::DefaultHasher`,
which is SipHash-1-3 keyed with `(0, 0)`; we embed that hash function
faithfully over byte streams, modelling `u64` digests as `Nat` reduced
modulo `2^64`.  `Option<Box<Node>>` becomes the inductive `Tree` with a
`nil` constructor, keys (`i32`) become `Int`, values (`String`) stay
`String` and are hashed through their UTF-8 bytes followed by the
`0xff` terminator byte that Rust's `Hash for str` appends.
-/

namespace MerkleAvl

/-- 64-bit wrap-around, the behaviour of `u64` arithmetic. -/
def wrap64 (x : Nat) : Nat := x % 2 ^ 64

/-- Left rotation of a 64-bit word by `n` bits (`0 < n < 64`). -/
def rotl64 (x n : Nat) : Nat := (x * 2 ^ n) % 2 ^ 64 + x / 2 ^ (64 - n)

/-- The four-word SipHash internal state. -/
structure SipState where
  v0 : Nat
  v1 : Nat
  v2 : Nat
  v3 : Nat

/-- One SipHash round (the `SIPROUND` permutation). -/
def sipRound (s : SipState) : SipState :=
  let v0 := wrap64 (s.v0 + s.v1)
  let v1 := rotl64 s.v1 13
  let v1 := v1 ^^^ v0
  let v0 := rotl64 v0 32
  let v2 := wrap64 (s.v2 + s.v3)
  let v3 := rotl64 s.v3 16
  let v3 := v3 ^^^ v2
  let v0 := wrap64 (v0 + v3)
  let v3 := rotl64 v3 21
  let v3 := v3 ^^^ v0
  let v2 := wrap64 (v2 + v1)
  let v1 := rotl64 v1 17
  let v1 := v1 ^^^ v2
  let v2 := rotl64 v2 32
  ⟨v0, v1, v2, v3⟩

/-- Little-endian interpretation of a byte list as a word. -/
def leWord (bs : List Nat) : Nat := bs.foldr (fun b acc => b + 256 * acc) 0

/-- Consume the message 8 bytes at a time (one compression round per
block, SipHash-1-3), then run the final block with the length byte and
the three finalisation rounds. -/
def sipProcess (s : SipState) (totalLen : Nat) : List Nat → Nat
  | b0 :: b1 :: b2 :: b3 :: b4 :: b5 :: b6 :: b7 :: rest =>
      let m := leWord [b0, b1, b2, b3, b4, b5, b6, b7]
      let s1 := { s with v3 := s.v3 ^^^ m }
      let s2 := sipRound s1
      let s3 := { s2 with v0 := s2.v0 ^^^ m }
      sipProcess s3 totalLen rest
  | rest =>
      let b := leWord rest + (totalLen % 256) * 2 ^ 56
      let s1 := { s with v3 := s.v3 ^^^ b }
      let s2 := sipRound s1
      let s3 := { s2 with v0 := s2.v0 ^^^ b }
      let s4 := { s3 with v2 := s3.v2 ^^^ 0xff }
      let s5 := sipRound (sipRound (sipRound s4))
      s5.v0 ^^^ s5.v1 ^^^ s5.v2 ^^^ s5.v3

/-- SipHash-1-3 with key `(0, 0)`: the digest `DefaultHasher` computes
for a given written byte stream. -/
def sipHash13 (bs : List Nat) : Nat :=
  sipProcess
    ⟨0x736f6d6570736575, 0x646f72616e646f6d,
     0x6c7967656e657261, 0x7465646279746573⟩
    bs.length bs

/-- The 8 little-endian bytes a `write_u64` feeds to the hasher. -/
def u64Bytes (x : Nat) : List Nat :=
  [x % 256, x / 2 ^ 8 % 256, x / 2 ^ 16 % 256, x / 2 ^ 24 % 256,
   x / 2 ^ 32 % 256, x / 2 ^ 40 % 256, x / 2 ^ 48 % 256, x / 2 ^ 56 % 256]

/-- The 4 little-endian two's-complement bytes a `write_i32` feeds to
the hasher. -/
def i32Bytes (k : Int) : List Nat :=
  let n := (k % (2 ^ 32 : Int)).toNat
  [n % 256, n / 2 ^ 8 % 256, n / 2 ^ 16 % 256, n / 2 ^ 24 % 256]

/-- UTF-8 encoding of one character. -/
def utf8CharBytes (c : Char) : List Nat :=
  let n := c.toNat
  if n < 0x80 then [n]
  else if n < 0x800 then [0xC0 + n / 64, 0x80 + n % 64]
  else if n < 0x10000 then
    [0xE0 + n / 4096, 0x80 + n / 64 % 64, 0x80 + n % 64]
  else
    [0xF0 + n / 262144, 0x80 + n / 4096 % 64, 0x80 + n / 64 % 64,
     0x80 + n % 64]

/-- The bytes `Hash for String` writes: the UTF-8 bytes followed by a
single `0xff` byte. -/
def strBytes (s : String) : List Nat :=
  (s.data.map utf8CharBytes).flatten ++ [0xff]

/-- `Node::compute_hash(&key, &value)`: hash the key, then the value. -/
def computeHash (key : Int) (value : String) : Nat :=
  sipHash13 (i32Bytes key ++ strBytes value)

/-- The `Error` enum. -/
inductive Error where
  | NotFound : Error
  | InvalidProof : Error
deriving DecidableEq, Repr

/-- `Option<Box<Node>>`: `nil` is `None`, `node` carries the five
fields of `Node` plus the two child links. -/
inductive Tree where
  | nil : Tree
  | node (key : Int) (value : String) (hash : Nat) (height : Int)
      (left : Tree) (right : Tree) : Tree
deriving DecidableEq, Repr

namespace Tree

/-- `Node::height`: the stored height field, `0` for an absent node. -/
def ht : Tree → Int
  | nil => 0
  | node _ _ _ h _ _ => h

/-- The stored digest of a subtree root, if present (`root_hash`). -/
def hashOf : Tree → Option Nat
  | nil => none
  | node _ _ h _ _ _ => some h

/-- The key of a non-absent node (`0` as a junk value for `nil`, never
used on reachable calls). -/
def keyOf : Tree → Int
  | nil => 0
  | node k _ _ _ _ _ => k

/-- The value of a non-absent node. -/
def valOf : Tree → String
  | nil => ""
  | node _ v _ _ _ _ => v

end Tree

open Tree

/-- The bytes contributed by an optional child inside
`update_height_and_hash`: an absent child contributes nothing. -/
def childHashBytes : Tree → List Nat
  | Tree.nil => []
  | Tree.node _ _ h _ _ _ => u64Bytes h

/-- The digest `update_height_and_hash` computes: key, value, then the
digest of each present child. -/
def nodeHash (k : Int) (v : String) (l r : Tree) : Nat :=
  sipHash13 (i32Bytes k ++ strBytes v ++ childHashBytes l ++ childHashBytes r)

/-- `Node::update_height_and_hash`: recompute the stored height and
digest of a node from its children. -/
def updateHeightAndHash : Tree → Tree
  | Tree.nil => Tree.nil
  | Tree.node k v _ _ l r =>
      Tree.node k v (nodeHash k v l r) (1 + max l.ht r.ht) l r

/-- `Node::rotate_left`.  The Rust code `unwrap`s the right child; the
extra arms return the input unchanged in the cases where the Rust code
would panic (never reached by `balance`). -/
def rotateLeft : Tree → Tree
  | Tree.node k v h ht' l (Tree.node rk rv rh rht rl rr) =>
      updateHeightAndHash (Tree.node rk rv rh rht (updateHeightAndHash (Tree.node k v h ht' l rl)) rr)
  | t => t

/-- `Node::rotate_right`, symmetric. -/
def rotateRight : Tree → Tree
  | Tree.node k v h ht' (Tree.node lk lv lh lht ll lr) r =>
      updateHeightAndHash (Tree.node lk lv lh lht ll (updateHeightAndHash (Tree.node k v h ht' lr r)))
  | t => t

/-- `Node::balance_factor`: stored height of the right child minus the
stored height of the left child (the Rust code `unwrap`s the node; `0`
for `nil`, never reached). -/
def balanceFactor : Tree → Int
  | Tree.nil => 0
  | Tree.node _ _ _ _ l r => r.ht - l.ht

/-- `Node::balance`: the four AVL rotation cases. -/
def balance : Tree → Tree
  | Tree.nil => Tree.nil
  | Tree.node k v h ht' l r =>
      let bf := balanceFactor (Tree.node k v h ht' l r)
      if 1 < bf then
        let r' := if balanceFactor r < 0 then rotateRight r else r
        rotateLeft (Tree.node k v h ht' l r')
      else if bf < -1 then
        let l' := if 0 < balanceFactor l then rotateLeft l else l
        rotateRight (Tree.node k v h ht' l' r)
      else Tree.node k v h ht' l r

/-- `Node::insert`: BST descent, overwrite on an equal key, then
`update_height_and_hash` and `balance` on the way back up. -/
def insert : Tree → Int → String → Tree
  | Tree.nil, key, value =>
      Tree.node key value (computeHash key value) 1 Tree.nil Tree.nil
  | Tree.node k v h ht' l r, key, value =>
      if key < k then
        balance (updateHeightAndHash (Tree.node k v h ht' (insert l key value) r))
      else if k < key then
        balance (updateHeightAndHash (Tree.node k v h ht' l (insert r key value)))
      else
        balance (updateHeightAndHash (Tree.node k value h ht' l r))

/-- `Node::delete_min`: splice out the leftmost node, rebalancing on
the way back up.  Returns the remaining subtree and the removed node
(whose links have been `take`n). -/
def deleteMin : Tree → Tree × Tree
  | Tree.nil => (Tree.nil, Tree.nil)
  | Tree.node k v h ht' Tree.nil r => (r, Tree.node k v h ht' Tree.nil Tree.nil)
  | Tree.node k v h ht' (Tree.node lk lv lh lht ll lr) r =>
      let p := deleteMin (Tree.node lk lv lh lht ll lr)
      (balance (updateHeightAndHash (Tree.node k v h ht' p.1 r)), p.2)

/-- `Node::delete`: returns the new subtree and the removed node (a
clone of the matched node, children included), or `NotFound`. -/
def delete : Tree → Int → Except Error (Tree × Option Tree)
  | Tree.nil, _ => .error .NotFound
  | Tree.node k v h ht' l r, key =>
      if key < k then
        match delete l key with
        | .error e => .error e
        | .ok (newLeft, del) =>
            .ok (balance (updateHeightAndHash (Tree.node k v h ht' newLeft r)), del)
      else if k < key then
        match delete r key with
        | .error e => .error e
        | .ok (newRight, del) =>
            .ok (balance (updateHeightAndHash (Tree.node k v h ht' l newRight)), del)
      else
        let deleted := some (Tree.node k v h ht' l r)
        match l, r with
        | Tree.nil, _ => .ok (r, deleted)
        | _, Tree.nil => .ok (l, deleted)
        | Tree.node lk lv lh lht ll lr, Tree.node rk rv rh rht rl rr =>
            let p := deleteMin (Tree.node rk rv rh rht rl rr)
            .ok (balance (updateHeightAndHash (Tree.node p.2.keyOf p.2.valOf h ht'
                  (Tree.node lk lv lh lht ll lr) p.1)), deleted)

/-- `Node::lookup`: pure BST search. -/
def lookup : Tree → Int → Except Error String
  | Tree.nil, _ => .error .NotFound
  | Tree.node k v _ _ l r, key =>
      if key < k then lookup l key
      else if k < key then lookup r key
      else .ok v

/-- The `ProofNode` enum. -/
inductive ProofNode where
  | Left (nodeHash : Nat) (child : ProofNode) : ProofNode
  | Right (child : ProofNode) (nodeHash : Nat) : ProofNode
  | Leaf (key : Int) (value : String) : ProofNode
  | Empty : ProofNode
deriving DecidableEq, Repr

/-- `Node::generate_proof`: retrace the lookup path, wrapping in
`Left`/`Right` steps carrying the visited node's own digest; an absent
child yields `Empty`, an exact match yields `Leaf`. -/
def generateProof : Tree → Int → Except Error ProofNode
  | Tree.nil, _ => .ok .Empty
  | Tree.node k v h _ l r, key =>
      if key < k then
        match generateProof l key with
        | .error e => .error e
        | .ok lp => .ok (.Left h lp)
      else if k < key then
        match generateProof r key with
        | .error e => .error e
        | .ok rp => .ok (.Right rp h)
      else .ok (.Leaf k v)

/-- `ProofNode::hash`: fold the proof into a digest.  `Left`/`Right`
hash two `u64`s, `Leaf` hashes key and value, `Empty` is the fixed
sentinel `0`. -/
def ProofNode.hash : ProofNode → Nat
  | .Left nh c => sipHash13 (u64Bytes nh ++ u64Bytes c.hash)
  | .Right c nh => sipHash13 (u64Bytes c.hash ++ u64Bytes nh)
  | .Leaf k v => sipHash13 (i32Bytes k ++ strBytes v)
  | .Empty => 0

/-- `ProofNode::key_value`: the (key, value) of a top-level `Leaf`,
`None` for every other variant. -/
def ProofNode.keyValue : ProofNode → Option (Int × String)
  | .Leaf k v => some (k, v)
  | _ => none

/-- `MerkleAvlTree::verify_proof`: compare the folded digest with the
trusted root digest, then extract the top-level leaf. -/
def verifyProof (proof : ProofNode) (rootDigest : Nat) :
    Except Error (Int × String) :=
  if ProofNode.hash proof = rootDigest then
    match ProofNode.keyValue proof with
    | some kv => .ok kv
    | none => .error .InvalidProof
  else .error .InvalidProof

/-- `MerkleAvlTree::insert`. -/
def treeInsert (t : Tree) (key : Int) (value : String) : Tree :=
  insert t key value

/-- `MerkleAvlTree::delete`.  The Rust method `take`s the root before
calling `Node::delete`; when that call returns `Err`, the early return
leaves the root `None`, so the resulting root is `nil` on error. -/
def treeDelete (t : Tree) (key : Int) : Tree × Except Error Unit :=
  match delete t key with
  | .error e => (Tree.nil, .error e)
  | .ok (newRoot, deleted) =>
      match deleted with
      | some _ => (newRoot, .ok ())
      | none => (newRoot, .error .NotFound)

/-- `MerkleAvlTree::root_hash`. -/
def rootHash (t : Tree) : Option Nat := t.hashOf

/-- `MerkleAvlTree::generate_proof`. -/
def treeGenerateProof (t : Tree) (key : Int) : Except Error ProofNode :=
  generateProof t key

/-- Structural membership of a key/value binding in the tree. -/
def MemKV (key : Int) (v : String) : Tree → Prop
  | Tree.nil => False
  | Tree.node k v' _ _ l r => (key = k ∧ v = v') ∨ MemKV key v l ∨ MemKV key v r

/-- Every key of the tree satisfies `p`. -/
def ForallKeys (p : Int → Prop) : Tree → Prop
  | Tree.nil => True
  | Tree.node k _ _ _ l r => p k ∧ ForallKeys p l ∧ ForallKeys p r

/-- Binary-search-tree order: all keys on the left are below the node
key, all keys on the right above it, recursively. -/
def BST : Tree → Prop
  | Tree.nil => True
  | Tree.node k _ _ _ l r =>
      BST l ∧ BST r ∧
        ForallKeys (fun x => x < k) l ∧ ForallKeys (fun x => k < x) r

/-- The AVL shape invariant: every stored height field equals
`1 + max` of the children's heights (`0` for an absent child) and every
balance factor lies in `{-1, 0, 1}`. -/
def AVLInv : Tree → Prop
  | Tree.nil => True
  | Tree.node _ _ _ h l r =>
      AVLInv l ∧ AVLInv r ∧ h = 1 + max l.ht r.ht ∧
        -1 ≤ r.ht - l.ht ∧ r.ht - l.ht ≤ 1

/-- Digest consistency: every stored digest equals the hash of the
node's key, value and the digests of its present children. -/
def HashOK : Tree → Prop
  | Tree.nil => True
  | Tree.node k v h _ l r => HashOK l ∧ HashOK r ∧ h = nodeHash k v l r

/-- The trees producible from the empty tree by the public `insert` and
`delete` operations (a failed `delete` also counts as a step, since it
too rewrites the root field). -/
inductive Reachable : Tree → Prop where
  | empty : Reachable Tree.nil
  | insertStep (t : Tree) (k : Int) (v : String) :
      Reachable t → Reachable (treeInsert t k v)
  | deleteStep (t : Tree) (k : Int) :
      Reachable t → Reachable (treeDelete t k).1

/-- Whether a proof embeds a `Leaf` at any depth. -/
def hasLeaf : ProofNode → Bool
  | .Left _ c => hasLeaf c
  | .Right c _ => hasLeaf c
  | .Leaf _ _ => true
  | .Empty => false

/-- The (key, value) of the embedded `Leaf`, at any depth. -/
def leafKV : ProofNode → Option (Int × String)
  | .Left _ c => leafKV c
  | .Right c _ => leafKV c
  | .Leaf k v => some (k, v)
  | .Empty => none

/-- Whether the terminal case of a proof's spine is `Empty`. -/
def endsEmpty : ProofNode → Bool
  | .Left _ c => endsEmpty c
  | .Right c _ => endsEmpty c
  | .Leaf _ _ => false
  | .Empty => true

/-! ### Transport of `ForallKeys` and `BST` through the tree surgery -/

theorem forallKeys_mono {p q : Int → Prop} (hpq : ∀ x, p x → q x) :
    ∀ t : Tree, ForallKeys p t → ForallKeys q t
  | Tree.nil, _ => trivial
  | Tree.node k _ _ _ l r, ⟨h1, h2, h3⟩ =>
      ⟨hpq k h1, forallKeys_mono hpq l h2, forallKeys_mono hpq r h3⟩

theorem forallKeys_updateHeightAndHash {p : Int → Prop} :
    ∀ t : Tree, ForallKeys p (updateHeightAndHash t) ↔ ForallKeys p t
  | Tree.nil => Iff.rfl
  | Tree.node _ _ _ _ _ _ => Iff.rfl

theorem forallKeys_rotateLeft {p : Int → Prop} :
    ∀ t : Tree, ForallKeys p (rotateLeft t) ↔ ForallKeys p t
  | Tree.nil => Iff.rfl
  | Tree.node _ _ _ _ _ Tree.nil => Iff.rfl
  | Tree.node k v h h0 l (Tree.node rk rv rh rht rl rr) => by
      simp only [rotateLeft, updateHeightAndHash, ForallKeys]
      tauto

theorem forallKeys_rotateRight {p : Int → Prop} :
    ∀ t : Tree, ForallKeys p (rotateRight t) ↔ ForallKeys p t
  | Tree.nil => Iff.rfl
  | Tree.node _ _ _ _ Tree.nil _ => Iff.rfl
  | Tree.node k v h h0 (Tree.node lk lv lh lht ll lr) r => by
      simp only [rotateRight, updateHeightAndHash, ForallKeys]
      tauto

theorem forallKeys_balance {p : Int → Prop} :
    ∀ t : Tree, ForallKeys p (balance t) ↔ ForallKeys p t
  | Tree.nil => Iff.rfl
  | Tree.node k v h h0 l r => by
      have hr : ForallKeys p (if balanceFactor r < 0 then rotateRight r else r)
          ↔ ForallKeys p r := by
        split
        · exact forallKeys_rotateRight r
        · exact Iff.rfl
      have hl : ForallKeys p (if 0 < balanceFactor l then rotateLeft l else l)
          ↔ ForallKeys p l := by
        split
        · exact forallKeys_rotateLeft l
        · exact Iff.rfl
      simp only [balance]
      split
      · rw [forallKeys_rotateLeft]
        simp only [ForallKeys]
        rw [hr]
      · split
        · rw [forallKeys_rotateRight]
          simp only [ForallKeys]
          rw [hl]
        · exact Iff.rfl

theorem bst_updateHeightAndHash : ∀ t : Tree, BST (updateHeightAndHash t) ↔ BST t
  | Tree.nil => Iff.rfl
  | Tree.node _ _ _ _ _ _ => Iff.rfl

theorem bst_rotateLeft : ∀ t : Tree, BST t → BST (rotateLeft t)
  | Tree.nil, h => h
  | Tree.node _ _ _ _ _ Tree.nil, h => h
  | Tree.node k v h h0 l (Tree.node rk rv rh rht rl rr), hb => by
      simp only [rotateLeft, updateHeightAndHash, BST, ForallKeys] at *
      obtain ⟨hbl, ⟨hbrl, hbrr, hfrl, hfrr⟩, hfl, hkrk, hfkrl, hfkrr⟩ := hb
      refine ⟨⟨hbl, hbrl, hfl, hfkrl⟩, hbrr, ⟨hkrk, ?_, hfrl⟩, hfrr⟩
      exact forallKeys_mono (fun x hx => lt_trans hx hkrk) l hfl

theorem bst_rotateRight : ∀ t : Tree, BST t → BST (rotateRight t)
  | Tree.nil, h => h
  | Tree.node _ _ _ _ Tree.nil _, h => h
  | Tree.node k v h h0 (Tree.node lk lv lh lht ll lr) r, hb => by
      simp only [rotateRight, updateHeightAndHash, BST, ForallKeys] at *
      obtain ⟨⟨hbll, hblr, hfll, hflr⟩, hbr, ⟨hlkk, hfkll, hfklr⟩, hfr⟩ := hb
      refine ⟨hbll, ⟨hblr, hbr, hfklr, hfr⟩, hfll, ⟨hlkk, hflr, ?_⟩⟩
      exact forallKeys_mono (fun x hx => lt_trans hlkk hx) r hfr

theorem bst_balance : ∀ t : Tree, BST t → BST (balance t)
  | Tree.nil, h => h
  | Tree.node k v h h0 l r, hb => by
      simp only [BST] at hb
      obtain ⟨hbl, hbr, hfl, hfr⟩ := hb
      have hr1 : BST (if balanceFactor r < 0 then rotateRight r else r) := by
        split
        · exact bst_rotateRight r hbr
        · exact hbr
      have hr2 : ForallKeys (fun x => k < x)
          (if balanceFactor r < 0 then rotateRight r else r) := by
        split
        · exact (forallKeys_rotateRight r).mpr hfr
        · exact hfr
      have hl1 : BST (if 0 < balanceFactor l then rotateLeft l else l) := by
        split
        · exact bst_rotateLeft l hbl
        · exact hbl
      have hl2 : ForallKeys (fun x => x < k)
          (if 0 < balanceFactor l then rotateLeft l else l) := by
        split
        · exact (forallKeys_rotateLeft l).mpr hfl
        · exact hfl
      simp only [balance]
      split
      · exact bst_rotateLeft _ ⟨hbl, hr1, hfl, hr2⟩
      · split
        · exact bst_rotateRight _ ⟨hl1, hbr, hl2, hfr⟩
        · exact ⟨hbl, hbr, hfl, hfr⟩

/-! ### Transport of `MemKV` through the tree surgery, and lookup -/

theorem memKV_updateHeightAndHash {key : Int} {v : String} :
    ∀ t : Tree, MemKV key v (updateHeightAndHash t) ↔ MemKV key v t
  | Tree.nil => Iff.rfl
  | Tree.node _ _ _ _ _ _ => Iff.rfl

theorem memKV_rotateLeft {key : Int} {v : String} :
    ∀ t : Tree, MemKV key v (rotateLeft t) ↔ MemKV key v t
  | Tree.nil => Iff.rfl
  | Tree.node _ _ _ _ _ Tree.nil => Iff.rfl
  | Tree.node k v' h h0 l (Tree.node rk rv rh rht rl rr) => by
      simp only [rotateLeft, updateHeightAndHash, MemKV]
      tauto

theorem memKV_rotateRight {key : Int} {v : String} :
    ∀ t : Tree, MemKV key v (rotateRight t) ↔ MemKV key v t
  | Tree.nil => Iff.rfl
  | Tree.node _ _ _ _ Tree.nil _ => Iff.rfl
  | Tree.node k v' h h0 (Tree.node lk lv lh lht ll lr) r => by
      simp only [rotateRight, updateHeightAndHash, MemKV]
      tauto

theorem memKV_balance {key : Int} {v : String} :
    ∀ t : Tree, MemKV key v (balance t) ↔ MemKV key v t
  | Tree.nil => Iff.rfl
  | Tree.node k v' h h0 l r => by
      have hr : MemKV key v (if balanceFactor r < 0 then rotateRight r else r)
          ↔ MemKV key v r := by
        split
        · exact memKV_rotateRight r
        · exact Iff.rfl
      have hl : MemKV key v (if 0 < balanceFactor l then rotateLeft l else l)
          ↔ MemKV key v l := by
        split
        · exact memKV_rotateLeft l
        · exact Iff.rfl
      simp only [balance]
      split
      · rw [memKV_rotateLeft]
        simp only [MemKV]
        rw [hr]
      · split
        · rw [memKV_rotateRight]
          simp only [MemKV]
          rw [hl]
        · exact Iff.rfl

theorem memKV_forallKeys {p : Int → Prop} {key : Int} {v : String} :
    ∀ t : Tree, ForallKeys p t → MemKV key v t → p key
  | Tree.node k v' h h0 l r, ⟨h1, h2, h3⟩, hm => by
      rcases hm with ⟨rfl, _⟩ | hm | hm
      · exact h1
      · exact memKV_forallKeys l h2 hm
      · exact memKV_forallKeys r h3 hm

theorem forallKeys_iff_memKV {p : Int → Prop} :
    ∀ t : Tree, ForallKeys p t ↔ ∀ key v, MemKV key v t → p key
  | Tree.nil => by simp [ForallKeys, MemKV]
  | Tree.node k v' h h0 l r => by
      constructor
      · intro hf key v hm
        exact memKV_forallKeys _ hf hm
      · intro hmem
        refine ⟨hmem k v' (Or.inl ⟨rfl, rfl⟩), ?_, ?_⟩
        · exact (forallKeys_iff_memKV l).mpr
            (fun key v hm => hmem key v (Or.inr (Or.inl hm)))
        · exact (forallKeys_iff_memKV r).mpr
            (fun key v hm => hmem key v (Or.inr (Or.inr hm)))

theorem lookup_cases : ∀ (t : Tree) (key : Int),
    (∃ v, lookup t key = .ok v) ∨ lookup t key = .error .NotFound
  | Tree.nil, _ => Or.inr rfl
  | Tree.node k v h h0 l r, key => by
      simp only [lookup]
      by_cases h1 : key < k
      · rw [if_pos h1]
        exact lookup_cases l key
      · rw [if_neg h1]
        by_cases h2 : k < key
        · rw [if_pos h2]
          exact lookup_cases r key
        · rw [if_neg h2]
          exact Or.inl ⟨v, rfl⟩

theorem lookup_ok_iff {key : Int} {v : String} :
    ∀ t : Tree, BST t → (lookup t key = .ok v ↔ MemKV key v t)
  | Tree.nil, _ => by simp [lookup, MemKV]
  | Tree.node k v' h h0 l r, ⟨hbl, hbr, hfl, hfr⟩ => by
      simp only [lookup, MemKV]
      rcases lt_trichotomy key k with h1 | h1 | h1
      · rw [if_pos h1, lookup_ok_iff l hbl]
        constructor
        · exact fun hm => Or.inr (Or.inl hm)
        · rintro (⟨rfl, _⟩ | hm | hm)
          · omega
          · exact hm
          · exact absurd (memKV_forallKeys r hfr hm) (by omega)
      · subst h1
        rw [if_neg (by omega), if_neg (by omega)]
        constructor
        · rintro h
          exact Or.inl ⟨rfl, (Except.ok.injEq _ _ ▸ h).symm⟩
        · rintro (⟨_, rfl⟩ | hm | hm)
          · rfl
          · exact absurd (memKV_forallKeys l hfl hm) (by omega)
          · exact absurd (memKV_forallKeys r hfr hm) (by omega)
      · rw [if_neg (by omega), if_pos h1, lookup_ok_iff r hbr]
        constructor
        · exact fun hm => Or.inr (Or.inr hm)
        · rintro (⟨rfl, _⟩ | hm | hm)
          · omega
          · exact absurd (memKV_forallKeys l hfl hm) (by omega)
          · exact hm

theorem memKV_unique {key : Int} {v v' : String} {t : Tree} (hb : BST t)
    (h1 : MemKV key v t) (h2 : MemKV key v' t) : v = v' := by
  have e1 := (lookup_ok_iff t hb).mpr h1
  have e2 := (lookup_ok_iff t hb).mpr h2
  rw [e1] at e2
  exact (Except.ok.injEq _ _ ▸ e2)

theorem lookup_ext {key : Int} {t1 t2 : Tree} (hb1 : BST t1) (hb2 : BST t2)
    (hm : ∀ v, MemKV key v t1 ↔ MemKV key v t2) :
    lookup t1 key = lookup t2 key := by
  rcases lookup_cases t1 key with ⟨v, hv⟩ | hv
  · rw [hv]
    exact ((lookup_ok_iff t2 hb2).mpr ((hm v).mp ((lookup_ok_iff t1 hb1).mp hv))).symm
  · rcases lookup_cases t2 key with ⟨w, hw⟩ | hw
    · exact absurd ((hm w).mpr ((lookup_ok_iff t2 hb2).mp hw))
        (fun hmem => by rw [(lookup_ok_iff t1 hb1).mpr hmem] at hv; cases hv)
    · rw [hv, hw]

/-! ### Insert: preservation of order and effect on the bindings -/

theorem forallKeys_insert {p : Int → Prop} {key : Int} {value : String} :
    ∀ t : Tree, ForallKeys p t → p key → ForallKeys p (insert t key value)
  | Tree.nil, _, hp => ⟨hp, trivial, trivial⟩
  | Tree.node k v h h0 l r, ⟨h1, h2, h3⟩, hp => by
      simp only [insert]
      split
      · rw [forallKeys_balance, forallKeys_updateHeightAndHash]
        exact ⟨h1, forallKeys_insert l h2 hp, h3⟩
      · split
        · rw [forallKeys_balance, forallKeys_updateHeightAndHash]
          exact ⟨h1, h2, forallKeys_insert r h3 hp⟩
        · rw [forallKeys_balance, forallKeys_updateHeightAndHash]
          exact ⟨h1, h2, h3⟩

theorem bst_insert {key : Int} {value : String} :
    ∀ t : Tree, BST t → BST (insert t key value)
  | Tree.nil, _ => ⟨trivial, trivial, trivial, trivial⟩
  | Tree.node k v h h0 l r, ⟨hbl, hbr, hfl, hfr⟩ => by
      simp only [insert]
      split
      · rename_i hlt
        apply bst_balance
        rw [bst_updateHeightAndHash]
        exact ⟨bst_insert l hbl, hbr, forallKeys_insert l hfl hlt, hfr⟩
      · split
        · rename_i hgt
          apply bst_balance
          rw [bst_updateHeightAndHash]
          exact ⟨hbl, bst_insert r hbr, hfl, forallKeys_insert r hfr hgt⟩
        · apply bst_balance
          rw [bst_updateHeightAndHash]
          exact ⟨hbl, hbr, hfl, hfr⟩

theorem insert_memKV {key k' : Int} {value v' : String} :
    ∀ t : Tree, BST t →
      (MemKV k' v' (insert t key value) ↔
        (k' = key ∧ v' = value) ∨ (k' ≠ key ∧ MemKV k' v' t))
  | Tree.nil, _ => by
      simp only [insert, MemKV]
      tauto
  | Tree.node k v h h0 l r, ⟨hbl, hbr, hfl, hfr⟩ => by
      simp only [insert]
      split
      · rename_i hlt
        rw [memKV_balance, memKV_updateHeightAndHash]
        simp only [MemKV]
        rw [insert_memKV l hbl]
        constructor
        · rintro (⟨rfl, rfl⟩ | (⟨rfl, rfl⟩ | ⟨hne, hm⟩) | hm)
          · exact Or.inr ⟨by omega, Or.inl ⟨rfl, rfl⟩⟩
          · exact Or.inl ⟨rfl, rfl⟩
          · exact Or.inr ⟨hne, Or.inr (Or.inl hm)⟩
          · exact Or.inr ⟨by have := memKV_forallKeys r hfr hm; omega,
              Or.inr (Or.inr hm)⟩
        · rintro (⟨rfl, rfl⟩ | ⟨hne, (⟨rfl, rfl⟩ | hm | hm)⟩)
          · exact Or.inr (Or.inl (Or.inl ⟨rfl, rfl⟩))
          · exact Or.inl ⟨rfl, rfl⟩
          · exact Or.inr (Or.inl (Or.inr ⟨hne, hm⟩))
          · exact Or.inr (Or.inr hm)
      · split
        · rename_i hgt
          rw [memKV_balance, memKV_updateHeightAndHash]
          simp only [MemKV]
          rw [insert_memKV r hbr]
          constructor
          · rintro (⟨rfl, rfl⟩ | hm | (⟨rfl, rfl⟩ | ⟨hne, hm⟩))
            · exact Or.inr ⟨by omega, Or.inl ⟨rfl, rfl⟩⟩
            · exact Or.inr ⟨by have := memKV_forallKeys l hfl hm; omega,
                Or.inr (Or.inl hm)⟩
            · exact Or.inl ⟨rfl, rfl⟩
            · exact Or.inr ⟨hne, Or.inr (Or.inr hm)⟩
          · rintro (⟨rfl, rfl⟩ | ⟨hne, (⟨rfl, rfl⟩ | hm | hm)⟩)
            · exact Or.inr (Or.inr (Or.inl ⟨rfl, rfl⟩))
            · exact Or.inl ⟨rfl, rfl⟩
            · exact Or.inr (Or.inl hm)
            · exact Or.inr (Or.inr (Or.inr ⟨hne, hm⟩))
        · rename_i hnlt hngt
          have hkey : k = key := by omega
          subst hkey
          rw [memKV_balance, memKV_updateHeightAndHash]
          simp only [MemKV]
          constructor
          · rintro (⟨rfl, rfl⟩ | hm | hm)
            · exact Or.inl ⟨rfl, rfl⟩
            · exact Or.inr ⟨by have := memKV_forallKeys l hfl hm; omega,
                Or.inr (Or.inl hm)⟩
            · exact Or.inr ⟨by have := memKV_forallKeys r hfr hm; omega,
                Or.inr (Or.inr hm)⟩
          · rintro (⟨rfl, rfl⟩ | ⟨hne, (⟨rfl, rfl⟩ | hm | hm)⟩)
            · exact Or.inl ⟨rfl, rfl⟩
            · exact absurd rfl hne
            · exact Or.inr (Or.inl hm)
            · exact Or.inr (Or.inr hm)

theorem lookup_insert {key k' : Int} {value : String} {t : Tree} (hb : BST t) :
    lookup (insert t key value) k' =
      if k' = key then .ok value else lookup t k' := by
  by_cases hk : k' = key
  · subst hk
    rw [if_pos rfl]
    exact (lookup_ok_iff _ (bst_insert t hb)).mpr
      ((insert_memKV t hb).mpr (Or.inl ⟨rfl, rfl⟩))
  · rw [if_neg hk]
    apply lookup_ext (bst_insert t hb) hb
    intro v0
    rw [insert_memKV t hb]
    constructor
    · rintro (⟨h, _⟩ | ⟨_, hm⟩)
      · exact absurd h hk
      · exact hm
    · exact fun hm => Or.inr ⟨hk, hm⟩

/-! ### Delete: not-found propagation and effect on the bindings -/

theorem forallKeys_of_memKV_imp {p : Int → Prop} {t t' : Tree}
    (himp : ∀ k v, MemKV k v t' → MemKV k v t) (hf : ForallKeys p t) :
    ForallKeys p t' :=
  (forallKeys_iff_memKV t').mpr fun k v hm => memKV_forallKeys t hf (himp k v hm)

theorem delete_nf {key : Int} :
    ∀ t : Tree, lookup t key = .error .NotFound →
      delete t key = .error .NotFound
  | Tree.nil, _ => rfl
  | Tree.node k v h h0 l r, hl => by
      simp only [lookup] at hl
      simp only [delete]
      by_cases h1 : key < k
      · rw [if_pos h1] at hl ⊢
        rw [delete_nf l hl]
      · rw [if_neg h1] at hl ⊢
        by_cases h2 : k < key
        · rw [if_pos h2] at hl ⊢
          rw [delete_nf r hl]
        · rw [if_neg h2] at hl
          simp at hl

theorem deleteMin_spec :
    ∀ t : Tree, BST t → t ≠ Tree.nil →
      BST (deleteMin t).1 ∧
      MemKV (deleteMin t).2.keyOf (deleteMin t).2.valOf t ∧
      ForallKeys (fun x => (deleteMin t).2.keyOf < x) (deleteMin t).1 ∧
      ∀ k' v', MemKV k' v' (deleteMin t).1 ↔
        (k' ≠ (deleteMin t).2.keyOf ∧ MemKV k' v' t)
  | Tree.nil, _, hne => absurd rfl hne
  | Tree.node k v h h0 Tree.nil r, ⟨hbl, hbr, hfl, hfr⟩, _ => by
      refine ⟨hbr, Or.inl ⟨rfl, rfl⟩, hfr, fun k' v' => ?_⟩
      simp only [deleteMin, Tree.keyOf, MemKV]
      constructor
      · intro hm
        exact ⟨by have := memKV_forallKeys r hfr hm; omega, Or.inr (Or.inr hm)⟩
      · rintro ⟨hne, (⟨rfl, rfl⟩ | hm | hm)⟩
        · exact absurd rfl hne
        · exact absurd hm not_false
        · exact hm
  | Tree.node k v h h0 (Tree.node lk lv lh lht ll lr) r,
      ⟨hbl, hbr, hfl, hfr⟩, _ => by
      obtain ⟨ih1, ih2, ih3, ih4⟩ :=
        deleteMin_spec (Tree.node lk lv lh lht ll lr) hbl (by simp)
      have hmk : (deleteMin (Tree.node lk lv lh lht ll lr)).2.keyOf < k :=
        memKV_forallKeys (p := fun x => x < k) _ hfl ih2
      simp only [deleteMin]
      refine ⟨?_, Or.inr (Or.inl ih2), ?_, fun k' v' => ?_⟩
      · apply bst_balance
        rw [bst_updateHeightAndHash]
        exact ⟨ih1, hbr,
          forallKeys_of_memKV_imp (fun a b hm => ((ih4 a b).mp hm).2) hfl, hfr⟩
      · rw [forallKeys_balance, forallKeys_updateHeightAndHash]
        exact ⟨hmk, ih3, forallKeys_mono (fun x hx => lt_trans hmk hx) r hfr⟩
      · rw [memKV_balance, memKV_updateHeightAndHash]
        simp only [MemKV]
        constructor
        · rintro (⟨rfl, rfl⟩ | hm | hm)
          · exact ⟨by omega, Or.inl ⟨rfl, rfl⟩⟩
          · obtain ⟨hne, hm'⟩ := (ih4 k' v').mp hm
            exact ⟨hne, Or.inr (Or.inl hm')⟩
          · exact ⟨by have := memKV_forallKeys r hfr hm; omega,
              Or.inr (Or.inr hm)⟩
        · rintro ⟨hne, (⟨rfl, rfl⟩ | hm | hm)⟩
          · exact Or.inl ⟨rfl, rfl⟩
          · exact Or.inr (Or.inl ((ih4 k' v').mpr ⟨hne, hm⟩))
          · exact Or.inr (Or.inr hm)

theorem delete_spec {key : Int} {v : String} :
    ∀ t : Tree, BST t → lookup t key = .ok v →
      ∃ t' d, delete t key = .ok (t', some d) ∧
        d.keyOf = key ∧ d.valOf = v ∧ BST t' ∧
        ∀ k' v', MemKV k' v' t' ↔ (k' ≠ key ∧ MemKV k' v' t)
  | Tree.nil, _, hl => by simp [lookup] at hl
  | Tree.node k v0 h h0 l r, ⟨hbl, hbr, hfl, hfr⟩, hl => by
      simp only [lookup] at hl
      by_cases h1 : key < k
      · rw [if_pos h1] at hl
        obtain ⟨l', d, hdel, hdk, hdv, hbst, hiff⟩ := delete_spec l hbl hl
        refine ⟨balance (updateHeightAndHash (Tree.node k v0 h h0 l' r)), d, ?_,
          hdk, hdv, ?_, fun k' v' => ?_⟩
        · simp only [delete]
          rw [if_pos h1, hdel]
        · apply bst_balance
          rw [bst_updateHeightAndHash]
          exact ⟨hbst, hbr,
            forallKeys_of_memKV_imp (fun a b hm => ((hiff a b).mp hm).2) hfl,
            hfr⟩
        · rw [memKV_balance, memKV_updateHeightAndHash]
          simp only [MemKV]
          constructor
          · rintro (⟨rfl, rfl⟩ | hm | hm)
            · exact ⟨by omega, Or.inl ⟨rfl, rfl⟩⟩
            · obtain ⟨hne, hm'⟩ := (hiff k' v').mp hm
              exact ⟨hne, Or.inr (Or.inl hm')⟩
            · exact ⟨by have := memKV_forallKeys r hfr hm; omega,
                Or.inr (Or.inr hm)⟩
          · rintro ⟨hne, (⟨rfl, rfl⟩ | hm | hm)⟩
            · exact Or.inl ⟨rfl, rfl⟩
            · exact Or.inr (Or.inl ((hiff k' v').mpr ⟨hne, hm⟩))
            · exact Or.inr (Or.inr hm)
      · rw [if_neg h1] at hl
        by_cases h2 : k < key
        · rw [if_pos h2] at hl
          obtain ⟨r', d, hdel, hdk, hdv, hbst, hiff⟩ := delete_spec r hbr hl
          refine ⟨balance (updateHeightAndHash (Tree.node k v0 h h0 l r')), d, ?_,
            hdk, hdv, ?_, fun k' v' => ?_⟩
          · simp only [delete]
            rw [if_neg h1, if_pos h2, hdel]
          · apply bst_balance
            rw [bst_updateHeightAndHash]
            exact ⟨hbl, hbst, hfl,
              forallKeys_of_memKV_imp (fun a b hm => ((hiff a b).mp hm).2) hfr⟩
          · rw [memKV_balance, memKV_updateHeightAndHash]
            simp only [MemKV]
            constructor
            · rintro (⟨rfl, rfl⟩ | hm | hm)
              · exact ⟨by omega, Or.inl ⟨rfl, rfl⟩⟩
              · exact ⟨by have := memKV_forallKeys l hfl hm; omega,
                  Or.inr (Or.inl hm)⟩
              · obtain ⟨hne, hm'⟩ := (hiff k' v').mp hm
                exact ⟨hne, Or.inr (Or.inr hm')⟩
            · rintro ⟨hne, (⟨rfl, rfl⟩ | hm | hm)⟩
              · exact Or.inl ⟨rfl, rfl⟩
              · exact Or.inr (Or.inl hm)
              · exact Or.inr (Or.inr ((hiff k' v').mpr ⟨hne, hm⟩))
        · rw [if_neg h2] at hl
          have hkey : key = k := by omega
          have hv0 : v0 = v := by
            have := hl
            simp only [Except.ok.injEq] at this
            exact this
          subst hkey
          subst hv0
          match l, hbl, hfl with
          | Tree.nil, hbl, hfl =>
              refine ⟨r, Tree.node key v0 h h0 Tree.nil r, ?_, rfl, rfl, hbr,
                fun k' v' => ?_⟩
              · simp only [delete]
                rw [if_neg h1, if_neg h2]
              · simp only [MemKV]
                constructor
                · intro hm
                  exact ⟨by have := memKV_forallKeys r hfr hm; omega,
                    Or.inr (Or.inr hm)⟩
                · rintro ⟨hne, (⟨rfl, rfl⟩ | hm | hm)⟩
                  · exact absurd rfl hne
                  · exact absurd hm not_false
                  · exact hm
          | Tree.node lk lv lh lht ll lr, hbl, hfl =>
              match r, hbr, hfr with
              | Tree.nil, hbr, hfr =>
                  refine ⟨Tree.node lk lv lh lht ll lr,
                    Tree.node key v0 h h0 (Tree.node lk lv lh lht ll lr)
                      Tree.nil, ?_, rfl, rfl, hbl, fun k' v' => ?_⟩
                  · simp only [delete]
                    rw [if_neg h1, if_neg h2]
                  · simp only [MemKV]
                    constructor
                    · intro hm
                      exact ⟨by have := memKV_forallKeys _ hfl hm; omega,
                        Or.inr (Or.inl hm)⟩
                    · rintro ⟨hne, (⟨rfl, rfl⟩ | hm | hm)⟩
                      · exact absurd rfl hne
                      · exact hm
                      · exact absurd hm not_false
              | Tree.node rk rv rh rht rl rr, hbr, hfr =>
                  obtain ⟨dm1, dm2, dm3, dm4⟩ :=
                    deleteMin_spec (Tree.node rk rv rh rht rl rr) hbr (by simp)
                  set rmin := (deleteMin (Tree.node rk rv rh rht rl rr)).2
                    with hrmin
                  set r' := (deleteMin (Tree.node rk rv rh rht rl rr)).1
                    with hr'
                  have hkm : key < rmin.keyOf :=
                    memKV_forallKeys (p := fun x => key < x) _ hfr dm2
                  refine ⟨balance (updateHeightAndHash (Tree.node rmin.keyOf rmin.valOf
                      h h0 (Tree.node lk lv lh lht ll lr) r')),
                    Tree.node key v0 h h0 (Tree.node lk lv lh lht ll lr)
                      (Tree.node rk rv rh rht rl rr), ?_, rfl, rfl, ?_,
                    fun k' v' => ?_⟩
                  · simp only [delete]
                    rw [if_neg h1, if_neg h2]
                  · apply bst_balance
                    rw [bst_updateHeightAndHash]
                    refine ⟨hbl, dm1, ?_, dm3⟩
                    exact forallKeys_mono
                      (fun x hx => lt_trans hx hkm) _ hfl
                  · rw [memKV_balance, memKV_updateHeightAndHash]
                    simp only [MemKV]
                    constructor
                    · rintro (⟨rfl, rfl⟩ | hm | hm)
                      · exact ⟨by omega, Or.inr (Or.inr dm2)⟩
                      · exact ⟨by have := memKV_forallKeys _ hfl hm; omega,
                          Or.inr (Or.inl hm)⟩
                      · obtain ⟨hne, hm'⟩ := (dm4 k' v').mp hm
                        exact ⟨by have := memKV_forallKeys _ hfr hm'; omega,
                          Or.inr (Or.inr hm')⟩
                    · rintro ⟨hne, (⟨rfl, rfl⟩ | hm | hm)⟩
                      · exact absurd rfl hne
                      · exact Or.inr (Or.inl hm)
                      · by_cases hkm' : k' = rmin.keyOf
                        · subst hkm'
                          have : v' = rmin.valOf := memKV_unique hbr hm dm2
                          exact Or.inl ⟨rfl, this⟩
                        · exact Or.inr (Or.inr ((dm4 k' v').mpr ⟨hkm', hm⟩))

/-! ### AVL balance: rotations repair a factor of ±2 -/

theorem ht_nonneg : ∀ t : Tree, AVLInv t → 0 ≤ t.ht
  | Tree.nil, _ => le_refl 0
  | Tree.node k v h h0 l r, ⟨hl, hr, hh, _, _⟩ => by
      have := ht_nonneg l hl
      have := ht_nonneg r hr
      simp only [Tree.ht]
      omega

theorem ht_nil : Tree.nil.ht = 0 := rfl

theorem ht_node (k : Int) (v : String) (h : Nat) (h0 : Int) (l r : Tree) :
    (Tree.node k v h h0 l r).ht = h0 := rfl

theorem balanceFactor_node (k : Int) (v : String) (h : Nat) (h0 : Int)
    (l r : Tree) : balanceFactor (Tree.node k v h h0 l r) = r.ht - l.ht :=
  rfl

theorem avlInv_node (k : Int) (v : String) (h : Nat) (h0 : Int)
    (l r : Tree) :
    AVLInv (Tree.node k v h h0 l r) ↔
      AVLInv l ∧ AVLInv r ∧ h0 = 1 + max l.ht r.ht ∧
        -1 ≤ r.ht - l.ht ∧ r.ht - l.ht ≤ 1 :=
  Iff.rfl

theorem balance_node (k : Int) (v : String) (h : Nat) (h0 : Int)
    (l r : Tree) :
    balance (Tree.node k v h h0 l r) =
      if 1 < r.ht - l.ht then
        rotateLeft (Tree.node k v h h0 l
          (if balanceFactor r < 0 then rotateRight r else r))
      else if r.ht - l.ht < -1 then
        rotateRight (Tree.node k v h h0
          (if 0 < balanceFactor l then rotateLeft l else l) r)
      else Tree.node k v h h0 l r :=
  rfl

theorem balance_avl (k : Int) (v : String) (h : Nat) (l r : Tree)
    (hl : AVLInv l) (hr : AVLInv r)
    (hd : (r.ht - l.ht).natAbs ≤ 2) :
    AVLInv (balance (Tree.node k v h (1 + max l.ht r.ht) l r)) ∧
    max l.ht r.ht ≤ (balance (Tree.node k v h (1 + max l.ht r.ht) l r)).ht ∧
    (balance (Tree.node k v h (1 + max l.ht r.ht) l r)).ht
      ≤ 1 + max l.ht r.ht ∧
    ((r.ht - l.ht).natAbs ≤ 1 →
      balance (Tree.node k v h (1 + max l.ht r.ht) l r) =
        Tree.node k v h (1 + max l.ht r.ht) l r) := by
  have hl0 := ht_nonneg l hl
  have hr0 := ht_nonneg r hr
  rw [balance_node]
  by_cases hbig : 1 < r.ht - l.ht
  · -- right-heavy: the right child exists
    rw [if_pos hbig]
    match r, hr, hr0, hd, hbig with
    | Tree.nil, hr, hr0, hd, hbig => rw [ht_nil] at hbig; omega
    | Tree.node rk rv rh rh0 rl rr, hr, hr0, hd, hbig =>
      obtain ⟨hrl, hrr, hrh0, hbfa, hbfb⟩ := hr
      have hrl0 := ht_nonneg rl hrl
      have hrr0 := ht_nonneg rr hrr
      simp only [ht_node] at hbig hd hr0 ⊢
      subst hrh0
      rw [balanceFactor_node]
      by_cases hneg : rr.ht - rl.ht < 0
      · -- right-left: double rotation, the grandchild exists
        rw [if_pos hneg]
        match rl, hrl, hrl0, hneg, hbig, hd with
        | Tree.nil, hrl, hrl0, hneg, hbig, hd =>
            rw [ht_nil] at hneg; omega
        | Tree.node ck cv ch ch0 cl cr, hrl, hrl0, hneg, hbig, hd =>
          obtain ⟨hcl, hcr, hch0, hcfa, hcfb⟩ := hrl
          have hcl0 := ht_nonneg cl hcl
          have hcr0 := ht_nonneg cr hcr
          subst hch0
          simp only [rotateRight, rotateLeft, updateHeightAndHash]
          simp only [ht_node, ht_nil] at *
          refine ⟨(avlInv_node _ _ _ _ _ _).mpr
            ⟨(avlInv_node _ _ _ _ _ _).mpr ⟨hl, hcl, by first | omega | ((simp only [ht_node, ht_nil] at *) <;> omega), by first | omega | ((simp only [ht_node, ht_nil] at *) <;> omega),
                by first | omega | ((simp only [ht_node, ht_nil] at *) <;> omega)⟩,
              (avlInv_node _ _ _ _ _ _).mpr ⟨hcr, hrr, by first | omega | ((simp only [ht_node, ht_nil] at *) <;> omega), by first | omega | ((simp only [ht_node, ht_nil] at *) <;> omega),
                by first | omega | ((simp only [ht_node, ht_nil] at *) <;> omega)⟩,
              by first | omega | ((simp only [ht_node, ht_nil] at *) <;> omega), by first | omega | ((simp only [ht_node, ht_nil] at *) <;> omega), by first | omega | ((simp only [ht_node, ht_nil] at *) <;> omega)⟩,
            by first | omega | ((simp only [ht_node, ht_nil] at *) <;> omega), by first | omega | ((simp only [ht_node, ht_nil] at *) <;> omega), fun hcon => absurd hcon (by first | omega | ((simp only [ht_node, ht_nil] at *) <;> omega))⟩
      · rw [if_neg hneg]
        push_neg at hneg
        simp only [rotateLeft, updateHeightAndHash]
        simp only [ht_node, ht_nil] at *
        refine ⟨(avlInv_node _ _ _ _ _ _).mpr
          ⟨(avlInv_node _ _ _ _ _ _).mpr ⟨hl, hrl, by first | omega | ((simp only [ht_node, ht_nil] at *) <;> omega), by first | omega | ((simp only [ht_node, ht_nil] at *) <;> omega),
              by first | omega | ((simp only [ht_node, ht_nil] at *) <;> omega)⟩,
            hrr, by first | omega | ((simp only [ht_node, ht_nil] at *) <;> omega), by first | omega | ((simp only [ht_node, ht_nil] at *) <;> omega), by first | omega | ((simp only [ht_node, ht_nil] at *) <;> omega)⟩,
          by first | omega | ((simp only [ht_node, ht_nil] at *) <;> omega), by first | omega | ((simp only [ht_node, ht_nil] at *) <;> omega), fun hcon => absurd hcon (by first | omega | ((simp only [ht_node, ht_nil] at *) <;> omega))⟩
  · rw [if_neg hbig]
    by_cases hsmall : r.ht - l.ht < -1
    · -- left-heavy: the left child exists
      rw [if_pos hsmall]
      match l, hl, hl0, hd, hbig, hsmall with
      | Tree.nil, hl, hl0, hd, hbig, hsmall =>
          rw [ht_nil] at hsmall; omega
      | Tree.node lk lv lh lh0 ll lr2, hl, hl0, hd, hbig, hsmall =>
        obtain ⟨hll, hlr, hlh0, hbfa, hbfb⟩ := hl
        have hll0 := ht_nonneg ll hll
        have hlr0 := ht_nonneg lr2 hlr
        simp only [ht_node] at hsmall hbig hd hl0 ⊢
        subst hlh0
        rw [balanceFactor_node]
        by_cases hpos : 0 < lr2.ht - ll.ht
        · -- left-right: double rotation, the grandchild exists
          rw [if_pos hpos]
          match lr2, hlr, hlr0, hpos, hsmall, hd with
          | Tree.nil, hlr, hlr0, hpos, hsmall, hd =>
              rw [ht_nil] at hpos; omega
          | Tree.node ck cv ch ch0 cl cr, hlr, hlr0, hpos, hsmall, hd =>
            obtain ⟨hcl, hcr, hch0, hcfa, hcfb⟩ := hlr
            have hcl0 := ht_nonneg cl hcl
            have hcr0 := ht_nonneg cr hcr
            subst hch0
            simp only [rotateLeft, rotateRight, updateHeightAndHash]
            simp only [ht_node, ht_nil] at *
            refine ⟨(avlInv_node _ _ _ _ _ _).mpr
              ⟨(avlInv_node _ _ _ _ _ _).mpr ⟨hll, hcl, by first | omega | ((simp only [ht_node, ht_nil] at *) <;> omega), by first | omega | ((simp only [ht_node, ht_nil] at *) <;> omega),
                  by first | omega | ((simp only [ht_node, ht_nil] at *) <;> omega)⟩,
                (avlInv_node _ _ _ _ _ _).mpr ⟨hcr, hr, by first | omega | ((simp only [ht_node, ht_nil] at *) <;> omega), by first | omega | ((simp only [ht_node, ht_nil] at *) <;> omega),
                  by first | omega | ((simp only [ht_node, ht_nil] at *) <;> omega)⟩,
                by first | omega | ((simp only [ht_node, ht_nil] at *) <;> omega), by first | omega | ((simp only [ht_node, ht_nil] at *) <;> omega), by first | omega | ((simp only [ht_node, ht_nil] at *) <;> omega)⟩,
              by first | omega | ((simp only [ht_node, ht_nil] at *) <;> omega), by first | omega | ((simp only [ht_node, ht_nil] at *) <;> omega), fun hcon => absurd hcon (by first | omega | ((simp only [ht_node, ht_nil] at *) <;> omega))⟩
        · rw [if_neg hpos]
          push_neg at hpos
          simp only [rotateRight, updateHeightAndHash]
          simp only [ht_node, ht_nil] at *
          refine ⟨(avlInv_node _ _ _ _ _ _).mpr
            ⟨hll,
              (avlInv_node _ _ _ _ _ _).mpr ⟨hlr, hr, by first | omega | ((simp only [ht_node, ht_nil] at *) <;> omega), by first | omega | ((simp only [ht_node, ht_nil] at *) <;> omega),
                by first | omega | ((simp only [ht_node, ht_nil] at *) <;> omega)⟩,
              by first | omega | ((simp only [ht_node, ht_nil] at *) <;> omega), by first | omega | ((simp only [ht_node, ht_nil] at *) <;> omega), by first | omega | ((simp only [ht_node, ht_nil] at *) <;> omega)⟩,
            by first | omega | ((simp only [ht_node, ht_nil] at *) <;> omega), by first | omega | ((simp only [ht_node, ht_nil] at *) <;> omega), fun hcon => absurd hcon (by first | omega | ((simp only [ht_node, ht_nil] at *) <;> omega))⟩
    · rw [if_neg hsmall]
      refine ⟨(avlInv_node _ _ _ _ _ _).mpr
        ⟨hl, hr, rfl, by first | omega | ((simp only [ht_node, ht_nil] at *) <;> omega), by first | omega | ((simp only [ht_node, ht_nil] at *) <;> omega)⟩, ?_, ?_, fun _ => rfl⟩
      · simp only [ht_node]
        omega
      · simp only [ht_node]
        omega

theorem insert_avl {key : Int} {value : String} :
    ∀ t : Tree, AVLInv t →
      AVLInv (insert t key value) ∧
      t.ht ≤ (insert t key value).ht ∧ (insert t key value).ht ≤ t.ht + 1
  | Tree.nil, _ => by
      refine ⟨(avlInv_node _ _ _ _ _ _).mpr
        ⟨trivial, trivial, by simp [ht_nil], by simp [ht_nil],
          by simp [ht_nil]⟩, ?_, ?_⟩ <;>
        simp [insert, ht_nil, ht_node]
  | Tree.node k v h h0 l r, hav => by
      obtain ⟨hl, hr, hh0, hb1, hb2⟩ := hav
      subst hh0
      simp only [insert]
      by_cases h1 : key < k
      · rw [if_pos h1]
        obtain ⟨ih1, ih2, ih3⟩ := insert_avl l hl
        simp only [updateHeightAndHash]
        obtain ⟨b1, b2, b3, b4⟩ := balance_avl k v
          (nodeHash k v (insert l key value) r) (insert l key value) r
          ih1 hr (by omega)
        refine ⟨b1, ?_, ?_⟩ <;>
        · rw [ht_node]
          by_cases habs : ((r.ht : Int) - (insert l key value).ht).natAbs ≤ 1
          · rw [b4 habs, ht_node]
            omega
          · omega
      · rw [if_neg h1]
        by_cases h2 : k < key
        · rw [if_pos h2]
          obtain ⟨ih1, ih2, ih3⟩ := insert_avl r hr
          simp only [updateHeightAndHash]
          obtain ⟨b1, b2, b3, b4⟩ := balance_avl k v
            (nodeHash k v l (insert r key value)) l (insert r key value)
            hl ih1 (by omega)
          refine ⟨b1, ?_, ?_⟩ <;>
          · rw [ht_node]
            by_cases habs :
                (((insert r key value).ht : Int) - l.ht).natAbs ≤ 1
            · rw [b4 habs, ht_node]
              omega
            · omega
        · rw [if_neg h2]
          simp only [updateHeightAndHash]
          obtain ⟨b1, b2, b3, b4⟩ := balance_avl k value
            (nodeHash k value l r) l r hl hr (by omega)
          rw [b4 (by omega)]
          exact ⟨(avlInv_node _ _ _ _ _ _).mpr ⟨hl, hr, rfl, by omega,
            by omega⟩, by rw [ht_node, ht_node], by rw [ht_node, ht_node]; omega⟩

theorem deleteMin_avl :
    ∀ t : Tree, AVLInv t → t ≠ Tree.nil →
      AVLInv (deleteMin t).1 ∧
      t.ht - 1 ≤ (deleteMin t).1.ht ∧ (deleteMin t).1.ht ≤ t.ht
  | Tree.nil, _, hne => absurd rfl hne
  | Tree.node k v h h0 Tree.nil r, hav, _ => by
      obtain ⟨_, hr, hh0, hb1, hb2⟩ := hav
      subst hh0
      have hr0 := ht_nonneg r hr
      simp only [deleteMin]
      refine ⟨hr, ?_, ?_⟩ <;>
        (simp only [ht_node, ht_nil] at *) <;> omega
  | Tree.node k v h h0 (Tree.node lk lv lh lht ll lr) r, hav, _ => by
      obtain ⟨hl, hr, hh0, hb1, hb2⟩ := hav
      subst hh0
      obtain ⟨ih1, ih2, ih3⟩ :=
        deleteMin_avl (Tree.node lk lv lh lht ll lr) hl (by simp)
      simp only [deleteMin, updateHeightAndHash]
      obtain ⟨b1, b2, b3, b4⟩ := balance_avl k v
        (nodeHash k v (deleteMin (Tree.node lk lv lh lht ll lr)).1 r)
        (deleteMin (Tree.node lk lv lh lht ll lr)).1 r ih1 hr (by omega)
      refine ⟨b1, ?_, ?_⟩ <;>
      · by_cases habs : ((r.ht : Int) -
            (deleteMin (Tree.node lk lv lh lht ll lr)).1.ht).natAbs ≤ 1
        · rw [b4 habs]
          simp only [ht_node, ht_nil] at *
          omega
        · simp only [ht_node, ht_nil] at *
          omega

theorem delete_avl {key : Int} :
    ∀ t : Tree, AVLInv t → ∀ t' d, delete t key = .ok (t', d) →
      AVLInv t' ∧ t.ht - 1 ≤ t'.ht ∧ t'.ht ≤ t.ht
  | Tree.nil, _, t', d, hdel => by simp [delete] at hdel
  | Tree.node k v h h0 l r, hav, t', d, hdel => by
      obtain ⟨hl, hr, hh0, hb1, hb2⟩ := hav
      have hl0 := ht_nonneg l hl
      have hr0 := ht_nonneg r hr
      subst hh0
      simp only [delete] at hdel
      by_cases h1 : key < k
      · rw [if_pos h1] at hdel
        cases hdl : delete l key with
        | error e =>
            rw [hdl] at hdel
            cases hdel
        | ok p =>
            rw [hdl] at hdel
            simp only [Except.ok.injEq, Prod.mk.injEq] at hdel
            obtain ⟨hteq, hdeq⟩ := hdel
            obtain ⟨iha, ihb, ihc⟩ := delete_avl l hl p.1 p.2 (by rw [hdl])
            subst hteq
            simp only [updateHeightAndHash]
            obtain ⟨b1, b2, b3, b4⟩ := balance_avl k v
              (nodeHash k v p.1 r) p.1 r iha hr (by omega)
            refine ⟨b1, ?_, ?_⟩ <;>
            · rw [ht_node]
              by_cases habs : ((r.ht : Int) - p.1.ht).natAbs ≤ 1
              · rw [b4 habs, ht_node]
                omega
              · omega
      · rw [if_neg h1] at hdel
        by_cases h2 : k < key
        · rw [if_pos h2] at hdel
          cases hdl : delete r key with
          | error e =>
              rw [hdl] at hdel
              cases hdel
          | ok p =>
              rw [hdl] at hdel
              simp only [Except.ok.injEq, Prod.mk.injEq] at hdel
              obtain ⟨hteq, hdeq⟩ := hdel
              obtain ⟨iha, ihb, ihc⟩ := delete_avl r hr p.1 p.2 (by rw [hdl])
              subst hteq
              simp only [updateHeightAndHash]
              obtain ⟨b1, b2, b3, b4⟩ := balance_avl k v
                (nodeHash k v l p.1) l p.1 hl iha (by omega)
              refine ⟨b1, ?_, ?_⟩ <;>
              · rw [ht_node]
                by_cases habs : ((p.1.ht : Int) - l.ht).natAbs ≤ 1
                · rw [b4 habs, ht_node]
                  omega
                · omega
        · rw [if_neg h2] at hdel
          match l, hl, hl0, hb1, hb2, hdel with
          | Tree.nil, hl, hl0, hb1, hb2, hdel =>
              simp only [Except.ok.injEq, Prod.mk.injEq] at hdel
              obtain ⟨hteq, hdeq⟩ := hdel
              subst hteq
              refine ⟨hr, ?_, ?_⟩ <;>
                (simp only [ht_node, ht_nil] at *) <;> omega
          | Tree.node lk lv lh lht ll lr, hl, hl0, hb1, hb2, hdel =>
            match r, hr, hr0, hb1, hb2, hdel with
            | Tree.nil, hr, hr0, hb1, hb2, hdel =>
                simp only [Except.ok.injEq, Prod.mk.injEq] at hdel
                obtain ⟨hteq, hdeq⟩ := hdel
                subst hteq
                refine ⟨hl, ?_, ?_⟩ <;>
                  (simp only [ht_node, ht_nil] at *) <;> omega
            | Tree.node rk rv rh rht rl rr, hr, hr0, hb1, hb2, hdel =>
                obtain ⟨ih1, ih2, ih3⟩ :=
                  deleteMin_avl (Tree.node rk rv rh rht rl rr) hr (by simp)
                simp only [Except.ok.injEq, Prod.mk.injEq] at hdel
                obtain ⟨hteq, hdeq⟩ := hdel
                subst hteq
                simp only [updateHeightAndHash]
                obtain ⟨b1, b2, b3, b4⟩ := balance_avl
                  (deleteMin (Tree.node rk rv rh rht rl rr)).2.keyOf
                  (deleteMin (Tree.node rk rv rh rht rl rr)).2.valOf
                  (nodeHash (deleteMin (Tree.node rk rv rh rht rl rr)).2.keyOf
                    (deleteMin (Tree.node rk rv rh rht rl rr)).2.valOf
                    (Tree.node lk lv lh lht ll lr)
                    (deleteMin (Tree.node rk rv rh rht rl rr)).1)
                  (Tree.node lk lv lh lht ll lr)
                  (deleteMin (Tree.node rk rv rh rht rl rr)).1
                  hl ih1 (by omega)
                refine ⟨b1, ?_, ?_⟩ <;>
                · by_cases habs :
                      (((deleteMin (Tree.node rk rv rh rht rl rr)).1.ht : Int)
                        - (Tree.node lk lv lh lht ll lr).ht).natAbs ≤ 1
                  · rw [b4 habs]
                    simp only [ht_node, ht_nil] at *
                    omega
                  · simp only [ht_node, ht_nil] at *
                    omega

/-! ### Digest consistency is maintained by every operation -/

theorem hashOK_node (k : Int) (v : String) (h : Nat) (h0 : Int)
    (l r : Tree) :
    HashOK (Tree.node k v h h0 l r) ↔
      HashOK l ∧ HashOK r ∧ h = nodeHash k v l r :=
  Iff.rfl

theorem computeHash_eq_nodeHash (key : Int) (value : String) :
    computeHash key value = nodeHash key value Tree.nil Tree.nil := by
  simp [computeHash, nodeHash, childHashBytes]

theorem hashOK_balance : ∀ t : Tree, HashOK t → HashOK (balance t)
  | Tree.nil, hh => hh
  | Tree.node k v h h0 l r, hh => by
      obtain ⟨hl, hr, hko⟩ := hh
      rw [balance_node]
      split
      · cases r with
        | nil =>
            rw [if_neg (by decide : ¬balanceFactor Tree.nil < 0)]
            exact show HashOK (Tree.node k v h h0 l Tree.nil) from
              ⟨hl, trivial, hko⟩
        | node rk rv rh rht rl rr =>
            obtain ⟨hrl, hrr, hrko⟩ := hr
            split
            · cases rl with
              | nil =>
                  exact ⟨⟨hl, trivial, rfl⟩, hrr, rfl⟩
              | node ck cv ch ch0 cl cr =>
                  obtain ⟨hcl, hcr, hcko⟩ := hrl
                  exact ⟨⟨hl, hcl, rfl⟩, ⟨hcr, hrr, rfl⟩, rfl⟩
            · exact ⟨⟨hl, hrl, rfl⟩, hrr, rfl⟩
      · split
        · cases l with
          | nil =>
              rw [if_neg (by decide : ¬0 < balanceFactor Tree.nil)]
              exact show HashOK (Tree.node k v h h0 Tree.nil r) from
                ⟨trivial, hr, hko⟩
          | node lk lv lh lht ll lr =>
              obtain ⟨hll, hlr, hlko⟩ := hl
              split
              · cases lr with
                | nil =>
                    exact ⟨hll, ⟨trivial, hr, rfl⟩, rfl⟩
                | node ck cv ch ch0 cl cr =>
                    obtain ⟨hcl, hcr, hcko⟩ := hlr
                    exact ⟨⟨hll, hcl, rfl⟩, ⟨hcr, hr, rfl⟩, rfl⟩
              · exact ⟨hll, ⟨hlr, hr, rfl⟩, rfl⟩
        · exact ⟨hl, hr, hko⟩

theorem hashOK_insert {key : Int} {value : String} :
    ∀ t : Tree, HashOK t → HashOK (insert t key value)
  | Tree.nil, _ => ⟨trivial, trivial, computeHash_eq_nodeHash key value⟩
  | Tree.node k v h h0 l r, ⟨hl, hr, hko⟩ => by
      simp only [insert]
      split
      · exact hashOK_balance _ ⟨hashOK_insert l hl, hr, rfl⟩
      · split
        · exact hashOK_balance _ ⟨hl, hashOK_insert r hr, rfl⟩
        · exact hashOK_balance _ ⟨hl, hr, rfl⟩

theorem hashOK_deleteMin :
    ∀ t : Tree, HashOK t → HashOK (deleteMin t).1
  | Tree.nil, hh => hh
  | Tree.node k v h h0 Tree.nil r, ⟨_, hr, _⟩ => hr
  | Tree.node k v h h0 (Tree.node lk lv lh lht ll lr) r, ⟨hl, hr, _⟩ => by
      simp only [deleteMin]
      exact hashOK_balance _ ⟨hashOK_deleteMin _ hl, hr, rfl⟩

theorem hashOK_delete {key : Int} :
    ∀ t : Tree, HashOK t → ∀ t' d, delete t key = .ok (t', d) → HashOK t'
  | Tree.nil, _, t', d, hdel => by simp [delete] at hdel
  | Tree.node k v h h0 l r, ⟨hl, hr, hko⟩, t', d, hdel => by
      simp only [delete] at hdel
      by_cases h1 : key < k
      · rw [if_pos h1] at hdel
        cases hdl : delete l key with
        | error e =>
            rw [hdl] at hdel
            cases hdel
        | ok p =>
            rw [hdl] at hdel
            simp only [Except.ok.injEq, Prod.mk.injEq] at hdel
            obtain ⟨hteq, hdeq⟩ := hdel
            subst hteq
            exact hashOK_balance _
              ⟨hashOK_delete l hl p.1 p.2 (by rw [hdl]), hr, rfl⟩
      · rw [if_neg h1] at hdel
        by_cases h2 : k < key
        · rw [if_pos h2] at hdel
          cases hdl : delete r key with
          | error e =>
              rw [hdl] at hdel
              cases hdel
          | ok p =>
              rw [hdl] at hdel
              simp only [Except.ok.injEq, Prod.mk.injEq] at hdel
              obtain ⟨hteq, hdeq⟩ := hdel
              subst hteq
              exact hashOK_balance _
                ⟨hl, hashOK_delete r hr p.1 p.2 (by rw [hdl]), rfl⟩
        · rw [if_neg h2] at hdel
          match l, hl, hdel with
          | Tree.nil, hl, hdel =>
              simp only [Except.ok.injEq, Prod.mk.injEq] at hdel
              obtain ⟨hteq, hdeq⟩ := hdel
              subst hteq
              exact hr
          | Tree.node lk lv lh lht ll lr, hl, hdel =>
            match r, hr, hdel with
            | Tree.nil, hr, hdel =>
                simp only [Except.ok.injEq, Prod.mk.injEq] at hdel
                obtain ⟨hteq, hdeq⟩ := hdel
                subst hteq
                exact hl
            | Tree.node rk rv rh rht rl rr, hr, hdel =>
                simp only [Except.ok.injEq, Prod.mk.injEq] at hdel
                obtain ⟨hteq, hdeq⟩ := hdel
                subst hteq
                exact hashOK_balance _
                  ⟨hl, hashOK_deleteMin _ hr, rfl⟩

/-! ### The combined invariant of all reachable trees -/

theorem reachable_inv {t : Tree} (hreach : Reachable t) :
    AVLInv t ∧ BST t ∧ HashOK t := by
  induction hreach with
  | empty => exact ⟨trivial, trivial, trivial⟩
  | insertStep t0 k v _ ih =>
      obtain ⟨ha, hb, hh⟩ := ih
      exact ⟨(insert_avl t0 ha).1, bst_insert t0 hb, hashOK_insert t0 hh⟩
  | deleteStep t0 k _ ih =>
      obtain ⟨ha, hb, hh⟩ := ih
      simp only [treeDelete]
      cases hdl : delete t0 k with
      | error e => exact ⟨trivial, trivial, trivial⟩
      | ok p =>
          have havl := (delete_avl t0 ha p.1 p.2 (by rw [hdl])).1
          have hhash := hashOK_delete t0 hh p.1 p.2 (by rw [hdl])
          have hbst : BST p.1 := by
            rcases lookup_cases t0 k with ⟨v, hv⟩ | hv
            · obtain ⟨t1, d1, hdel1, _, _, hbst1, _⟩ := delete_spec t0 hb hv
              rw [hdl] at hdel1
              cases hdel1
              exact hbst1
            · rw [delete_nf t0 hv] at hdl
              cases hdl
          cases p with
          | mk t1 d1 =>
              cases d1 with
              | none => exact ⟨havl, hbst, hhash⟩
              | some d2 => exact ⟨havl, hbst, hhash⟩


/-! ### Proof generation on absent keys, tree-level delete reductions -/

theorem generateProof_nf {key : Int} :
    ∀ t : Tree, lookup t key = .error .NotFound →
      ∃ pf, generateProof t key = .ok pf ∧ endsEmpty pf = true
  | Tree.nil, _ => ⟨.Empty, rfl, rfl⟩
  | Tree.node k v h h0 l r, hl => by
      simp only [lookup] at hl
      simp only [generateProof]
      by_cases h1 : key < k
      · rw [if_pos h1] at hl ⊢
        obtain ⟨pf, hpf, hee⟩ := generateProof_nf l hl
        rw [hpf]
        exact ⟨.Left h pf, rfl, hee⟩
      · rw [if_neg h1] at hl ⊢
        by_cases h2 : k < key
        · rw [if_pos h2] at hl ⊢
          obtain ⟨pf, hpf, hee⟩ := generateProof_nf r hl
          rw [hpf]
          exact ⟨.Right pf h, rfl, hee⟩
        · rw [if_neg h2] at hl
          simp at hl

theorem treeDelete_eq_of_ok {t : Tree} {k : Int} {t1 d : Tree}
    (h : delete t k = .ok (t1, some d)) : treeDelete t k = (t1, .ok ()) := by
  unfold treeDelete
  rw [h]

theorem treeDelete_eq_of_err {t : Tree} {k : Int} {e : Error}
    (h : delete t k = .error e) : treeDelete t k = (Tree.nil, .error e) := by
  unfold treeDelete
  rw [h]


/-! ### The claims -/

set_option maxRecDepth 10000

/-- C1: the spec claims that for every tree built from the empty tree and
every key `k` present with value `v`, `verify_proof(generate_proof(k),
root_hash())` succeeds and returns `(k, v)`.  The code fails this on the
two-node tree built by `insert(10,"value10"); insert(20,"value20")`: the
proof for the present key 10 is `Leaf(10,"value10")`, whose fold is the
bare leaf digest, while the stored root digest also mixes in the right
child's digest, so verification returns `InvalidProof`. -/
theorem roundtrip_fails_on_two_node_tree :
    lookup (treeInsert (treeInsert Tree.nil 10 "value10") 20 "value20") 10 =
      .ok "value10" ∧
    treeGenerateProof
      (treeInsert (treeInsert Tree.nil 10 "value10") 20 "value20") 10 =
      .ok (ProofNode.Leaf 10 "value10") ∧
    rootHash (treeInsert (treeInsert Tree.nil 10 "value10") 20 "value20") =
      some 12508335282502823063 ∧
    verifyProof (ProofNode.Leaf 10 "value10") 12508335282502823063 =
      .error .InvalidProof :=
  ⟨rfl, rfl, rfl, rfl⟩

/-- C2: the spec claims `delete` on an absent key fails with `NotFound`
and leaves the tree and its root digest unchanged.  The code's
tree-level `delete` `take`s the root before calling `Node::delete`, so
on the error path the root stays `None`: deleting the absent key 5 from
the singleton tree `{10 ↦ "value10"}` returns `NotFound` but empties
the tree, changing the root digest from `Some(...)` to `None` and
losing the binding for 10. -/
theorem delete_absent_key_clears_tree :
    treeDelete (treeInsert Tree.nil 10 "value10") 5 =
      (Tree.nil, .error .NotFound) ∧
    rootHash (treeInsert Tree.nil 10 "value10") =
      some 7882085928248106478 ∧
    rootHash Tree.nil = none ∧
    lookup Tree.nil 10 = .error .NotFound :=
  ⟨rfl, rfl, rfl, rfl⟩

/-- C3 counterexample: a proof that folds to the trusted digest and
embeds a `Leaf(10,"value10")` one step down; the claim says
verification succeeds returning `(10,"value10")`, but `key_value` only
recognises a top-level `Leaf`, so verification returns `InvalidProof`. -/
theorem embedded_leaf_not_returned :
    ProofNode.hash (ProofNode.Left 5 (ProofNode.Leaf 10 "value10")) =
      12617851530648892843 ∧
    leafKV (ProofNode.Left 5 (ProofNode.Leaf 10 "value10")) =
      some (10, "value10") ∧
    hasLeaf (ProofNode.Left 5 (ProofNode.Leaf 10 "value10")) = true ∧
    verifyProof (ProofNode.Left 5 (ProofNode.Leaf 10 "value10"))
      12617851530648892843 = .error .InvalidProof :=
  ⟨rfl, rfl, rfl, rfl⟩

/-- C3 (amended): verification succeeds with `(k, v)` exactly when the
proof folds to the trusted digest and is itself `Leaf(k, v)` at top
level; a `Leaf` embedded strictly below a `Left`/`Right` step is never
returned. -/
theorem verify_ok_iff_top_level_leaf (p : ProofNode) (d : Nat) (k : Int)
    (v : String) :
    verifyProof p d = .ok (k, v) ↔
      ProofNode.hash p = d ∧ p = ProofNode.Leaf k v := by
  unfold verifyProof
  by_cases hf : ProofNode.hash p = d
  · rw [if_pos hf]
    cases p with
    | Left nh c => simp [ProofNode.keyValue]
    | Right c nh => simp [ProofNode.keyValue]
    | Empty => simp [ProofNode.keyValue]
    | Leaf k0 v0 =>
        simp only [ProofNode.keyValue]
        constructor
        · intro hok
          simp only [Except.ok.injEq, Prod.mk.injEq] at hok
          obtain ⟨hk, hv2⟩ := hok
          subst hk
          subst hv2
          exact ⟨hf, rfl⟩
        · rintro ⟨_, hp⟩
          injection hp with h1 h2
          rw [h1, h2]
  · rw [if_neg hf]
    constructor
    · intro hx
      cases hx
    · rintro ⟨h1, _⟩
      exact absurd h1 hf

/-- C4: every tree reachable from the empty tree by the public insert
and delete operations has consistent digests: each node's stored digest
is the hash of its key, value and the digests of its present children,
an absent child contributing nothing. -/
theorem reachable_digest_consistent (t : Tree) (h : Reachable t) :
    HashOK t :=
  (reachable_inv h).2.2

/-- C4 witness. -/
theorem reachable_digest_consistent_witness :
    HashOK (treeInsert (treeInsert (treeInsert Tree.nil 10 "value10")
      20 "value20") 5 "value5") :=
  reachable_digest_consistent _
    (Reachable.insertStep _ 5 "value5" (Reachable.insertStep _ 20 "value20"
      (Reachable.insertStep _ 10 "value10" Reachable.empty)))

/-- C5: every tree reachable from the empty tree by the public insert
and delete operations satisfies the AVL invariant (stored height fields
equal `1 + max` of the children's heights, `0` for an absent child, and
every balance factor lies in `{-1,0,1}`) together with BST order. -/
theorem reachable_avl_bst (t : Tree) (h : Reachable t) :
    AVLInv t ∧ BST t :=
  ⟨(reachable_inv h).1, (reachable_inv h).2.1⟩

/-- C5 witness. -/
theorem reachable_avl_bst_witness :
    AVLInv (treeInsert (treeInsert (treeInsert Tree.nil 10 "value10")
        20 "value20") 5 "value5") ∧
      BST (treeInsert (treeInsert (treeInsert Tree.nil 10 "value10")
        20 "value20") 5 "value5") :=
  reachable_avl_bst _
    (Reachable.insertStep _ 5 "value5" (Reachable.insertStep _ 20 "value20"
      (Reachable.insertStep _ 10 "value10" Reachable.empty)))

/-- C6 counterexample: the public `delete` returns `Ok(())`, not the
removed entry: deleting key 10 from `{10 ↦ "valueA"}` and from
`{10 ↦ "valueB"}` yields the very same success value even though the
removed entries differ, so the returned value cannot carry the removed
key/value pair. -/
theorem public_delete_returns_unit :
    (treeDelete (treeInsert Tree.nil 10 "valueA") 10).2 = .ok () ∧
    (treeDelete (treeInsert Tree.nil 10 "valueB") 10).2 = .ok () ∧
    (treeDelete (treeInsert Tree.nil 10 "valueA") 10).2 =
      (treeDelete (treeInsert Tree.nil 10 "valueB") 10).2 :=
  ⟨rfl, rfl, rfl⟩

/-- C6 (amended): for every reachable tree and key `k` present with
value `v`, delete succeeds; the recursive `Node::delete` produces the
removed node, whose key is `k` and stored value is `v`, but the public
`MerkleAvlTree::delete` discards it and returns `Ok(())`. -/
theorem delete_present_key_removed_entry (t : Tree) (k : Int) (v : String)
    (h : Reachable t) (hl : lookup t k = .ok v) :
    ∃ t1 d, delete t k = .ok (t1, some d) ∧ d.keyOf = k ∧ d.valOf = v ∧
      (treeDelete t k).2 = .ok () := by
  obtain ⟨_, hb, _⟩ := reachable_inv h
  obtain ⟨t1, d, hdel, hdk, hdv, _, _⟩ := delete_spec t hb hl
  exact ⟨t1, d, hdel, hdk, hdv, by rw [treeDelete_eq_of_ok hdel]⟩

/-- C6 witness. -/
theorem delete_present_key_removed_entry_witness :
    ∃ t1 d, delete (treeInsert Tree.nil 10 "value10") 10 =
        .ok (t1, some d) ∧ d.keyOf = 10 ∧ d.valOf = "value10" ∧
      (treeDelete (treeInsert Tree.nil 10 "value10") 10).2 = .ok () :=
  delete_present_key_removed_entry _ 10 "value10"
    (Reachable.insertStep _ 10 "value10" Reachable.empty) rfl

/-- C7: on every reachable tree, `lookup(k)` immediately after
`insert(k, v)` returns `v`, and `lookup(k)` immediately after a
successful `delete(k)` fails with `NotFound`. -/
theorem lookup_after_insert_and_delete (t : Tree) (k : Int) (v : String)
    (h : Reachable t) :
    lookup (treeInsert t k v) k = .ok v ∧
    ((treeDelete t k).2 = .ok () →
      lookup (treeDelete t k).1 k = .error .NotFound) := by
  obtain ⟨_, hb, _⟩ := reachable_inv h
  constructor
  · show lookup (insert t k v) k = .ok v
    rw [lookup_insert hb, if_pos rfl]
  · intro hdel
    rcases lookup_cases t k with ⟨v0, hv0⟩ | hv0
    · obtain ⟨t1, d, hdel1, _, _, hbst1, hiff1⟩ := delete_spec t hb hv0
      rw [treeDelete_eq_of_ok hdel1]
      rcases lookup_cases t1 k with ⟨w, hw⟩ | hw
      · have := (hiff1 k w).mp ((lookup_ok_iff t1 hbst1).mp hw)
        exact absurd rfl this.1
      · exact hw
    · rw [treeDelete_eq_of_err (delete_nf t hv0)] at hdel
      simp at hdel

/-- C7 witness. -/
theorem lookup_after_insert_and_delete_witness :
    lookup (treeInsert (treeInsert Tree.nil 10 "value10") 20 "value20") 20 =
      .ok "value20" ∧
    ((treeDelete (treeInsert Tree.nil 10 "value10") 20).2 = .ok () →
      lookup (treeDelete (treeInsert Tree.nil 10 "value10") 20).1 20 =
        .error .NotFound) :=
  lookup_after_insert_and_delete _ 20 "value20"
    (Reachable.insertStep _ 10 "value10" Reachable.empty)

/-- C8: verification fails with `InvalidProof` whenever the fold of the
proof differs from the trusted digest, or whenever the proof embeds no
`Leaf` at any depth (for example `Empty`, whose fold is the fixed
sentinel `0`). -/
theorem verify_fails_on_mismatch_or_no_leaf (p : ProofNode) (d : Nat)
    (h : ProofNode.hash p ≠ d ∨ hasLeaf p = false) :
    verifyProof p d = .error .InvalidProof ∧
      ProofNode.hash ProofNode.Empty = 0 := by
  refine ⟨?_, rfl⟩
  unfold verifyProof
  by_cases hf : ProofNode.hash p = d
  · rw [if_pos hf]
    rcases h with h | h
    · exact absurd hf h
    · cases p with
      | Leaf k v => simp [hasLeaf] at h
      | Left nh c => rfl
      | Right c nh => rfl
      | Empty => rfl
  · rw [if_neg hf]

/-- C8 witness: `Empty` folds to the sentinel `0`, matches the trusted
digest `0`, yet verification still fails since no leaf is embedded. -/
theorem verify_fails_on_mismatch_or_no_leaf_witness :
    verifyProof ProofNode.Empty 0 = .error .InvalidProof ∧
      ProofNode.hash ProofNode.Empty = 0 :=
  verify_fails_on_mismatch_or_no_leaf ProofNode.Empty 0 (Or.inr rfl)

/-- C9: on every tree and absent key, `generate_proof` does not fail:
it returns a proof whose terminal case is `Empty`, while `lookup` and
`delete` on the same absent key both fail with `NotFound`. -/
theorem generate_proof_absent_key_empty (t : Tree) (k : Int)
    (h : lookup t k = .error .NotFound) :
    (∃ pf, treeGenerateProof t k = .ok pf ∧ endsEmpty pf = true) ∧
      delete t k = .error .NotFound :=
  ⟨generateProof_nf t h, delete_nf t h⟩

/-- C9 witness. -/
theorem generate_proof_absent_key_empty_witness :
    (∃ pf, treeGenerateProof (treeInsert Tree.nil 10 "value10") 5 =
        .ok pf ∧ endsEmpty pf = true) ∧
      delete (treeInsert Tree.nil 10 "value10") 5 = .error .NotFound :=
  generate_proof_absent_key_empty _ 5 rfl

/-- C10: on every reachable tree, insert and successful delete preserve
all other bindings: for `k' ≠ k`, `lookup(k')` is unchanged by
`insert(k, v)` and by a successful `delete(k)`. -/
theorem insert_delete_frame (t : Tree) (k k1 : Int) (v : String)
    (h : Reachable t) (hne : k1 ≠ k) :
    lookup (treeInsert t k v) k1 = lookup t k1 ∧
    ((treeDelete t k).2 = .ok () →
      lookup (treeDelete t k).1 k1 = lookup t k1) := by
  obtain ⟨_, hb, _⟩ := reachable_inv h
  constructor
  · show lookup (insert t k v) k1 = lookup t k1
    rw [lookup_insert hb, if_neg hne]
  · intro hdel
    rcases lookup_cases t k with ⟨v0, hv0⟩ | hv0
    · obtain ⟨t1, d, hdel1, _, _, hbst1, hiff1⟩ := delete_spec t hb hv0
      rw [treeDelete_eq_of_ok hdel1]
      refine lookup_ext hbst1 hb fun w => ?_
      rw [hiff1 k1 w]
      exact ⟨fun hx => hx.2, fun hx => ⟨hne, hx⟩⟩
    · rw [treeDelete_eq_of_err (delete_nf t hv0)] at hdel
      simp at hdel

/-- C10 witness. -/
theorem insert_delete_frame_witness :
    lookup (treeInsert (treeInsert Tree.nil 10 "value10") 20 "value20") 10 =
      lookup (treeInsert Tree.nil 10 "value10") 10 ∧
    ((treeDelete (treeInsert Tree.nil 10 "value10") 20).2 = .ok () →
      lookup (treeDelete (treeInsert Tree.nil 10 "value10") 20).1 10 =
        lookup (treeInsert Tree.nil 10 "value10") 10) :=
  insert_delete_frame _ 20 10 "value20"
    (Reachable.insertStep _ 10 "value10" Reachable.empty) (by decide)


end MerkleAvl
